import Mathlib

/-!
# Shallow embedding of `movecell_graph` (src/src/lib.rs)

The Rust library stores all nodes of a graph in a `typed_arena::Arena`;
a node reference `&'a Node<'a, T>` is stable for the graph's lifetime.
We model the arena as a list of nodes (`Store T`) and a node reference as
its index of allocation (`NodeRef := Nat`).

A `Node` holds a datum and an edge cell `MoveCell<Option<Vec<&Node>>>`,
here `Option (List NodeRef)`: `Node::new` initialises it to `none`, and
`add_edge` always writes back `some`.  The `MoveCell.take`/`replace`
discipline of the source is modelled explicitly by `takeEdges` /
`replaceEdges`, which return/accept the whole store, so that the
store-restoration behaviour of the DFS iterator is a provable statement
rather than a modelling assumption.
-/

/-- A node reference `&'a Node<'a, T>`: the index at which the node was
allocated in its graph's arena. -/
abbrev NodeRef := Nat

/-- `Node<'a, T>`: a datum plus the edge cell.  `edges = none` models a
`MoveCell` currently holding `None` (fresh node, or mid-`take`). -/
structure Node (T : Type) where
  datum : T
  edges : Option (List NodeRef)
  deriving Repr, DecidableEq

/-- The arena's contents: node `i` of the list is the node returned by the
`i`-th allocation. -/
abbrev Store (T : Type) := List (Node T)

/-- `Node::new(datum)`: a detached node with datum `datum` and
`edges: MoveCell::new(None)`. -/
def Node.new (datum : T) : Node T :=
  { datum := datum, edges := none }

/-- `self.edges.take()`: reads the cell of node `n` and leaves `none` in it.
Returns the updated store together with the value read.  An out-of-range
reference (impossible in the Rust API) reads as `none` and leaves the store
unchanged. -/
def takeEdges (st : Store T) (n : NodeRef) : Store T × Option (List NodeRef) :=
  match st[n]? with
  | none => (st, none)
  | some nd => (st.set n { nd with edges := none }, nd.edges)

/-- `self.edges.replace(e)`: writes `e` into the cell of node `n`
(discarding the old contents, as the source discards `replace`'s result). -/
def replaceEdges (st : Store T) (n : NodeRef) (e : Option (List NodeRef)) : Store T :=
  match st[n]? with
  | none => st
  | some nd => st.set n { nd with edges := e }

/-- `Node::add_edge(&self, edge)`:
`let mut edges = self.edges.take().unwrap_or(Vec::new()); edges.push(edge);
self.edges.replace(Some(edges)); edge`.  Returns the updated store and the
returned reference (always `edge` itself). -/
def Node.add_edge (st : Store T) (n edge : NodeRef) : Store T × NodeRef :=
  let t := takeEdges st n
  let edges := t.2.getD []
  (replaceEdges t.1 n (some (edges ++ [edge])), edge)

/-- The current edge list of node `n` as the iterator sees it after a
successful `take` (`[]` when the cell holds `none`). -/
def edgesOf (st : Store T) (n : NodeRef) : List NodeRef :=
  ((st[n]?).bind Node.edges).getD []

/-- The datum of node `n` (`none` for an out-of-range reference). -/
def datumOf (st : Store T) (n : NodeRef) : Option T :=
  (st[n]?).map Node.datum

/-- Contents of node `n`'s edge cell (`none` also for an out-of-range
reference, which then behaves like a fresh leaf). -/
def cellOf (st : Store T) (n : NodeRef) : Option (List NodeRef) :=
  (st[n]?).bind Node.edges

/-- One entry of `DfsIter::branch_points`: `(Option<usize>, &Node)`. -/
abbrev Frame := Option Nat × NodeRef

/-- Weight of a frame for the termination measure of `DfsIter::next`'s
internal `while` loop: a `Some`-indexed frame may still spawn work. -/
def frameW : Frame → Nat
  | (none, _) => 0
  | (some _, _) => 1

/-- Total weight of a stack of frames. -/
def stackW : List Frame → Nat
  | [] => 0
  | f :: r => frameW f + stackW r

/-- Weight of the top frame (0 for an empty stack). -/
def headW : List Frame → Nat
  | [] => 0
  | f :: _ => frameW f

/-- Combined measure: the internal loop of `DfsIter::next` strictly
decreases it at every iteration that does not return. -/
def stackMeasure (s : List Frame) : Nat := 2 * stackW s + headW s

/-- `DfsIter::next`, with the `MoveCell` traffic made explicit: the store
is threaded through the `take`/`replace` pairs.  Returns the store as the
loop leaves it, the emitted value (if any) and the remaining
`branch_points` stack. -/
def DfsIter.nextCell (st : Store T) (stack : List Frame) :
    Store T × Option NodeRef × List Frame :=
  match stack with
  | [] => (st, none, [])
  | (idx, n) :: rest =>
    match takeEdges st n with
    | (st1, none) =>
      -- `if let Some(edges) = ... else { return Some(node) }`
      (st1, some n, rest)
    | (st1, some edges) =>
      match idx with
      | none =>
        -- first visit: push `(Some(0), node)` back, emit the node
        (replaceEdges st1 n (some edges), some n, (some 0, n) :: rest)
      | some i =>
        if hi : i < edges.length then
          -- push `(Some(i+1), node)` then `(None, edges[i])`, keep looping
          DfsIter.nextCell (replaceEdges st1 n (some edges))
            ((none, edges.get ⟨i, hi⟩) :: (some (i + 1), n) :: rest)
        else
          -- subtree finished: frame discarded, keep looping
          DfsIter.nextCell (replaceEdges st1 n (some edges)) rest
  termination_by stackMeasure stack
  decreasing_by
  · simp only [stackMeasure, stackW, headW, frameW]
    omega
  · have h1 : headW rest ≤ 1 := by
      cases rest with
      | nil => simp [headW]
      | cons f r =>
        cases f with
        | mk o m => cases o <;> simp [headW, frameW]
    simp only [stackMeasure, stackW, headW, frameW] at h1 ⊢
    omega

/-- `DfsIter::next` stripped to its observable part.  By `nextCell_store`
(below) the store component of `nextCell` is always the input store, so the
iterator's behaviour is fully described by this value/stack projection
against a fixed store. -/
def DfsIter.next (st : Store T) (stack : List Frame) : Option NodeRef × List Frame :=
  (DfsIter.nextCell st stack).2

/-- Run the iterator to exhaustion, `fuel` bounding the number of produced
values: `some l` means the iterator emitted exactly `l` and then signalled
exhaustion; `none` means it was still emitting when the fuel ran out. -/
def DfsIter.runTo (st : Store T) : Nat → List Frame → Option (List NodeRef)
  | 0, stack =>
    match DfsIter.next st stack with
    | (none, _) => some []
    | (some _, _) => none
  | fuel + 1, stack =>
    match DfsIter.next st stack with
    | (none, _) => some []
    | (some n, stack') => (DfsIter.runTo st fuel stack').map (n :: ·)

/-- `k` calls of `DfsIter::next` with the store threaded through each call,
returning the store and the `branch_points` stack they leave behind. -/
def DfsIter.stepsCell (st : Store T) (stack : List Frame) : Nat → Store T × List Frame
  | 0 => (st, stack)
  | k + 1 =>
    let r := DfsIter.nextCell st stack
    DfsIter.stepsCell r.1 r.2.2 k

/-- The iterator emits exactly the sequence `l` and then signals
exhaustion (for some sufficient fuel bound). -/
def RunsTo (st : Store T) (stack : List Frame) (l : List NodeRef) : Prop :=
  ∃ fuel, DfsIter.runTo st fuel stack = some l

/-- `Node::dfs(&self)`: the freshly constructed iterator's stack,
`branch_points: vec![(None, self)]`. -/
def Node.dfs (n : NodeRef) : List Frame :=
  [(none, n)]

/-- `Graph<'a, T>`: the arena plus the root cell `Cell<Option<&Node>>`. -/
structure Graph (T : Type) where
  arena : Store T
  rootCell : Option NodeRef

/-- `Graph::new()`: empty arena, `root: Cell::new(None)`. -/
def Graph.new : Graph T :=
  { arena := [], rootCell := none }

/-- `Graph::own_node(&self, node)`: `self.arena.alloc(node)` — appends the
node to the arena and returns the reference to it. -/
def Graph.own_node (g : Graph T) (nd : Node T) : Graph T × NodeRef :=
  ({ g with arena := g.arena ++ [nd] }, g.arena.length)

/-- `Graph::root(&self)`: `self.root.get().unwrap()`.  The `unwrap` panic
on an unset root is modelled by the `none` result. -/
def Graph.root (g : Graph T) : Option NodeRef :=
  g.rootCell

/-- `Graph::set_root(&self, root)`: stores `Some(root)` in the cell and
returns `root`. -/
def Graph.set_root (g : Graph T) (n : NodeRef) : Graph T × NodeRef :=
  ({ g with rootCell := some n }, n)

/-- A sequence of `add_edge` calls against node `n`, one per element of
`ts`, in order. -/
def Node.addEdges (st : Store T) (n : NodeRef) (ts : List NodeRef) : Store T :=
  ts.foldl (fun s t => (Node.add_edge s n t).1) st

/-- There is an edge from `a` to `b` (i.e. `b` occurs in `a`'s edge list). -/
def edgeTo (st : Store T) (a b : NodeRef) : Prop :=
  b ∈ edgesOf st a

/-- `b` is reachable from `a` along edges. -/
def Reaches (st : Store T) (a b : NodeRef) : Prop :=
  Relation.ReflTransGen (edgeTo st) a b

/-- No directed cycle runs through any node reachable from `r`. -/
def AcyclicFrom (st : Store T) (r : NodeRef) : Prop :=
  ∀ n, Reaches st r n → ¬ Relation.TransGen (edgeTo st) n n

/-- Every stored edge points at a node of the store. -/
def EdgesInRange (st : Store T) : Prop :=
  ∀ a b, edgeTo st a b → b < st.length

/-- The child relation restricted to reachable parents: `b` is a child of
`a` and `a` is reachable from `r`.  Well-founded whenever no reachable
cycle exists (and edges stay in range). -/
def childRelR (st : Store T) (r : NodeRef) (b a : NodeRef) : Prop :=
  edgeTo st a b ∧ Reaches st r a

/-- `childRelR` transported to the finite index type `Fin (st.length + 1)`. -/
def finRel (st : Store T) (r : NodeRef) (x y : Fin (st.length + 1)) : Prop :=
  childRelR st r x.val y.val

/-- Clamp a node reference into `Fin (st.length + 1)`. -/
def finProj (st : Store T) (n : NodeRef) : Fin (st.length + 1) :=
  ⟨min n st.length, by omega⟩

/-- The pre-order expansion of the graph from `n`, one entry per
(node, path) pair, children in edge order; `fuel` bounds the recursion
depth (`fuelOK` states when the bound is never hit). -/
def flatten (st : Store T) : Nat → NodeRef → List NodeRef
  | 0, n => [n]
  | fuel + 1, n => n :: ((edgesOf st n).map (flatten st fuel)).flatten

/-- `fuel` suffices to expand the graph from `n` without truncation. -/
def fuelOK (st : Store T) : Nat → NodeRef → Prop
  | 0, n => edgesOf st n = []
  | fuel + 1, n => ∀ c ∈ edgesOf st n, fuelOK st fuel c

/-- All directed paths out of `n` (depth bounded by `fuel`), each written
end-point first and origin last, enumerated in pre-order. -/
def paths (st : Store T) : Nat → NodeRef → List (List NodeRef)
  | 0, n => [[n]]
  | fuel + 1, n =>
    [n] :: ((edgesOf st n).map (fun c => (paths st fuel c).map (· ++ [n]))).flatten

/-- `while iter.next().is_some() { }`: drains an iterator, returning its
final state; `none` when `fuel` steps did not reach the end (the Rust loop
would not have terminated yet). -/
def drainAll (step : S → Option (A × S)) : Nat → S → Option S
  | 0, s =>
    match step s with
    | none => some s
    | some _ => none
  | fuel + 1, s =>
    match step s with
    | none => some s
    | some (_, s') => drainAll step fuel s'

/-- `<&Node as FromIterator>::from_iter`: takes the first produced element
as the root (`unwrap` panic — `none` — when the sequence is empty), drains
the rest without touching the produced values, and returns the root
together with the drained iterator's final state. -/
def from_iter (step : S → Option (A × S)) (fuel : Nat) (s : S) : Option (A × S) :=
  match step s with
  | none => none
  | some (root, s1) => (drainAll step fuel s1).map (fun s2 => (root, s2))

/-- A list viewed as an iterator: `next` pops the head. -/
def listIter : List A → Option (A × List A)
  | [] => none
  | a :: t => some (a, t)

/-- Modelled from the spec: the cycle-safe `Node.traverse(callback)` operation
(absent from `src/src/lib.rs`; spec §4.4).  "At a node, if its datum is
already present in the visited set, return immediately; otherwise, invoke
the callback with a reference to the datum, insert the datum into the
visited set, then recurse into each edge target in insertion order."
Returns the final visited set and the sequence of datum values the
callback was invoked on; `fuel` bounds the recursion depth. -/
def Node.traverse [DecidableEq T] (st : Store T) : Nat → List T → NodeRef → List T × List T
  | 0, visited, _ => (visited, [])
  | fuel + 1, visited, n =>
    match st[n]? with
    | none => (visited, [])
    | some nd =>
      if nd.datum ∈ visited then (visited, [])
      else
        (nd.edges.getD []).foldl
          (fun acc c =>
            let r := Node.traverse st fuel acc.1 c
            (r.1, acc.2 ++ r.2))
          (nd.datum :: visited, [nd.datum])

/-- `graph.dfs().map(|e| graph2.own_node(Node::new(f(e.datum)))).collect()`
followed by `graph2.set_root(root)`: one fresh node (no edges) is allocated
into the new graph per emitted value, in emission order; `collect`
(`from_iter`) keeps the first allocated reference — index 0 — as root and
drains the rest.  `none` when the source iteration does not finish in
`fuel` steps or (the impossible case) produces nothing. -/
def mapCollect [Inhabited T] (st : Store T) (r : NodeRef) (f : T → U) (fuel : Nat) :
    Option (Graph U × NodeRef) :=
  (DfsIter.runTo st fuel (Node.dfs r)).bind fun ids =>
    match ids with
    | [] => none
    | _ :: _ =>
      let arena2 : Store U := ids.map fun i => Node.new (f ((datumOf st i).getD default))
      let g2 : Graph U := { arena := arena2, rootCell := none }
      some ((g2.set_root 0).1, 0)

/-- The graph the `it_works` test builds: `root(1)` with children `(2,3)`
appended in that order, node `2` with children `(4,5)` appended in that
order, following the exact construction sequence of the test. -/
def exampleGraph : Graph Nat :=
  let g0 := Graph.new
  let o1 := g0.own_node (Node.new 1)
  let s1 := o1.1.set_root o1.2
  let node1 := s1.2
  let o2 := s1.1.own_node (Node.new 2)
  let a2 := Node.add_edge o2.1.arena node1 o2.2
  let node2 := a2.2
  let g2 : Graph Nat := { arena := a2.1, rootCell := o2.1.rootCell }
  let o3 := g2.own_node (Node.new 3)
  let a3 := Node.add_edge o3.1.arena node1 o3.2
  let g3 : Graph Nat := { arena := a3.1, rootCell := o3.1.rootCell }
  let o4 := g3.own_node (Node.new 4)
  let a4 := Node.add_edge o4.1.arena node2 o4.2
  let g4 : Graph Nat := { arena := a4.1, rootCell := o4.1.rootCell }
  let o5 := g4.own_node (Node.new 5)
  let a5 := Node.add_edge o5.1.arena node2 o5.2
  { arena := a5.1, rootCell := o5.1.rootCell }

/-- The diamond: node 0 (datum 100, "root") with children 1 then 2;
node 1 (datum 101, "a") and node 2 (datum 102, "b") each with the single
child 3 (datum 103, "c"). -/
def diamondStore : Store Nat :=
  [⟨100, some [1, 2]⟩, ⟨101, some [3]⟩, ⟨102, some [3]⟩, ⟨103, none⟩]

/-- The 2-cycle: node 0 ("A", datum 10) with edge to node 1 ("B",
datum 20), which has an edge back to node 0. -/
def cycleStore : Store Nat :=
  [⟨10, some [1]⟩, ⟨20, some [0]⟩]

/-- The graph the second half of `it_works` produces for the mapping
d ↦ 2*d: one fresh (edge-less) node per dfs-emitted datum of the example
graph, in emission order, rooted at the node made for the first datum. -/
def mappedExample : Graph Nat :=
  { arena := [Node.new 2, Node.new 4, Node.new 8, Node.new 10, Node.new 6],
    rootCell := some 0 }

/-! ## Store restoration: the take/replace discipline -/

/-- Writing back the value just read leaves a list unchanged. -/
theorem set_self_of_getElem? : ∀ (l : List α) (n : Nat) (a : α),
    l[n]? = some a → l.set n a = l := by
  intro l
  induction l with
  | nil => intro n a h; simp at h
  | cons b l ih =>
    intro n a h
    cases n with
    | zero =>
      simp at h
      simp [h]
    | succ n =>
      simp only [List.set]
      rw [ih n a (by simpa using h)]

/-- A `take` that read `None` left the cell (hence the store) unchanged. -/
theorem takeEdges_none {st : Store T} {n : NodeRef} {st1 : Store T}
    (h : takeEdges st n = (st1, none)) : st1 = st := by
  unfold takeEdges at h
  cases hg : st[n]? with
  | none => rw [hg] at h; exact (Prod.mk.injEq .. ▸ h).1.symm
  | some nd =>
    rw [hg] at h
    obtain ⟨h1, h2⟩ := Prod.mk.injEq .. ▸ h
    have hnd : { nd with edges := none } = nd := by
      cases nd; simp_all
    rw [← h1, hnd, set_self_of_getElem? _ _ _ hg]

/-- A `take` that read `Some(edges)` followed by `replace(Some(edges))`
restores the store exactly. -/
theorem takeEdges_replaceEdges {st : Store T} {n : NodeRef} {st1 : Store T}
    {es : List NodeRef} (h : takeEdges st n = (st1, some es)) :
    replaceEdges st1 n (some es) = st := by
  unfold takeEdges at h
  cases hg : st[n]? with
  | none => rw [hg] at h; simp at h
  | some nd =>
    rw [hg] at h
    obtain ⟨h1, h2⟩ := Prod.mk.injEq .. ▸ h
    have hlt : n < st.length := by
      by_contra hge
      rw [List.getElem?_eq_none (Nat.le_of_not_lt hge)] at hg
      exact Option.noConfusion hg
    subst h1
    unfold replaceEdges
    rw [List.getElem?_set_self (by simpa using hlt)]
    simp only [List.set_set]
    have hnd : { nd with edges := some es } = nd := by
      cases nd; simp_all
    rw [hnd, set_self_of_getElem? _ _ _ hg]

namespace DfsIter

/-- Every call of `DfsIter::next` returns the store exactly as it found it:
each `take` is paired with a `replace` of the same list (or read `None` and
left `None`) before the loop continues or returns. -/
theorem nextCell_store (st : Store T) (stack : List Frame) :
    (nextCell st stack).1 = st := by
  induction st, stack using nextCell.induct with
  | case1 st => simp [nextCell]
  | case2 st idx n rest st1 h =>
    rw [nextCell.eq_def]
    simp only [h]
    exact takeEdges_none h
  | case3 st n rest st1 edges h =>
    rw [nextCell.eq_def]
    simp only [h]
    exact takeEdges_replaceEdges h
  | case4 st n rest st1 edges h i hi ih =>
    rw [nextCell.eq_def]
    simp only [h]
    rw [dif_pos hi]
    rw [takeEdges_replaceEdges h] at ih ⊢
    exact ih
  | case5 st n rest st1 edges h i hi ih =>
    rw [nextCell.eq_def]
    simp only [h]
    rw [dif_neg hi]
    rw [takeEdges_replaceEdges h] at ih ⊢
    exact ih

/-! ## Behaviour of one `next` call against a fixed store -/

theorem next_nil (st : Store T) : next st [] = (none, []) := by
  unfold next
  rw [nextCell.eq_def]

/-- A frame whose node's cell holds `None` is emitted at once, dropping the
frame (the `else { return Some(node) }` arm). -/
theorem next_emit {st : Store T} {n : NodeRef} (idx : Option Nat)
    (rest : List Frame) (h : cellOf st n = none) :
    next st ((idx, n) :: rest) = (some n, rest) := by
  unfold next
  rw [nextCell.eq_def]
  dsimp only
  cases hg : st[n]? with
  | none =>
    have ht : takeEdges st n = (st, none) := by simp [takeEdges, hg]
    rw [ht]
  | some nd =>
    have he : nd.edges = none := by simpa [cellOf, hg] using h
    have ht : takeEdges st n = (st.set n { nd with edges := none }, none) := by
      simp [takeEdges, hg, he]
    rw [ht]

/-- A not-yet-started frame on a node with a stored edge list re-pushes
`(Some(0), node)` and emits the node. -/
theorem next_enter {st : Store T} {n : NodeRef} (rest : List Frame)
    (h : (cellOf st n).isSome) :
    next st ((none, n) :: rest) = (some n, (some 0, n) :: rest) := by
  unfold next
  rw [nextCell.eq_def]
  dsimp only
  cases hg : st[n]? with
  | none => simp [cellOf, hg] at h
  | some nd =>
    cases he : nd.edges with
    | none => simp [cellOf, hg, he] at h
    | some es =>
      have ht : takeEdges st n = (st.set n { nd with edges := none }, some es) := by
        simp [takeEdges, hg, he]
      rw [ht]

/-- An in-range index pushes `(Some(i+1), node)` then `(None, edges[i])`
and continues the loop without emitting. -/
theorem next_child {st : Store T} {n : NodeRef} {i : Nat} (rest : List Frame)
    (hi : i < (edgesOf st n).length) :
    next st ((some i, n) :: rest)
      = next st ((none, (edgesOf st n).get ⟨i, hi⟩)
          :: (some (i + 1), n) :: rest) := by
  unfold next
  cases hg : st[n]? with
  | none => exact absurd hi (by simp [edgesOf, hg])
  | some nd =>
    cases he : nd.edges with
    | none => exact absurd hi (by simp [edgesOf, hg, he])
    | some es =>
      have hes : edgesOf st n = es := by simp [edgesOf, hg, he]
      subst hes
      have ht : takeEdges st n
          = (st.set n { nd with edges := none }, some (edgesOf st n)) := by
        simp [takeEdges, hg, he]
      conv_lhs => rw [nextCell.eq_def]
      dsimp only
      rw [ht]
      dsimp only
      rw [dif_pos hi]
      rw [takeEdges_replaceEdges ht]

/-- An out-of-range index discards the frame and continues the loop. -/
theorem next_done {st : Store T} {n : NodeRef} {i : Nat} (rest : List Frame)
    (hs : (cellOf st n).isSome) (hi : ¬ i < (edgesOf st n).length) :
    next st ((some i, n) :: rest) = next st rest := by
  unfold next
  cases hg : st[n]? with
  | none => simp [cellOf, hg] at hs
  | some nd =>
    cases he : nd.edges with
    | none => simp [cellOf, hg, he] at hs
    | some es =>
      have hes : edgesOf st n = es := by simp [edgesOf, hg, he]
      have ht : takeEdges st n = (st.set n { nd with edges := none }, some es) := by
        simp [takeEdges, hg, he]
      have hi' : ¬ i < es.length := hes ▸ hi
      conv_lhs => rw [nextCell.eq_def]
      dsimp only
      rw [ht]
      dsimp only
      rw [dif_neg hi']
      rw [takeEdges_replaceEdges ht]

end DfsIter

/-! ## Iterating `next`: `runTo` and `RunsTo` -/

namespace DfsIter

/-- `runTo` inspects the stack only through `next`. -/
theorem runTo_congr {st : Store T} {s1 s2 : List Frame}
    (h : next st s1 = next st s2) (fuel : Nat) :
    runTo st fuel s1 = runTo st fuel s2 := by
  cases fuel <;> simp only [runTo, h]

/-- The emitted sequence is independent of the fuel bound. -/
theorem runTo_det {st : Store T} :
    ∀ {f1 : Nat} {s : List Frame} {l1 l2 : List NodeRef} {f2 : Nat},
      runTo st f1 s = some l1 → runTo st f2 s = some l2 → l1 = l2 := by
  intro f1
  induction f1 with
  | zero =>
    intro s l1 l2 f2 h1 h2
    rcases hn : next st s with ⟨o, s'⟩
    cases o with
    | none =>
      cases f2 <;> simp only [runTo, hn] at h1 h2 <;> simp_all
    | some n =>
      simp only [runTo, hn] at h1
      simp at h1
  | succ f1 ih =>
    intro s l1 l2 f2 h1 h2
    rcases hn : next st s with ⟨o, s'⟩
    cases o with
    | none =>
      cases f2 <;> simp only [runTo, hn] at h1 h2 <;> simp_all
    | some n =>
      cases f2 with
      | zero =>
        simp only [runTo, hn] at h2
        simp at h2
      | succ f2 =>
        simp only [runTo, hn] at h1 h2
        simp only [Option.map_eq_some'] at h1 h2
        obtain ⟨l1', hr1, e1⟩ := h1
        obtain ⟨l2', hr2, e2⟩ := h2
        rw [← e1, ← e2, ih hr1 hr2]

end DfsIter

/-- A step that signals exhaustion ends the run at once. -/
theorem RunsTo_of_none {st : Store T} {s s' : List Frame}
    (h : DfsIter.next st s = (none, s')) : RunsTo st s [] :=
  ⟨0, by simp [DfsIter.runTo, h]⟩

/-- A step that emits `n` prepends `n` to whatever the rest of the run
emits. -/
theorem RunsTo_step {st : Store T} {s s' : List Frame} {n : NodeRef}
    {l : List NodeRef} (h : DfsIter.next st s = (some n, s'))
    (hl : RunsTo st s' l) : RunsTo st s (n :: l) := by
  obtain ⟨f, hf⟩ := hl
  exact ⟨f + 1, by simp [DfsIter.runTo, h, hf]⟩

/-- Two stacks on which `next` agrees produce the same runs. -/
theorem RunsTo_congr {st : Store T} {s1 s2 : List Frame} {l : List NodeRef}
    (h : DfsIter.next st s1 = DfsIter.next st s2) (h2 : RunsTo st s2 l) :
    RunsTo st s1 l := by
  obtain ⟨f, hf⟩ := h2
  exact ⟨f, (DfsIter.runTo_congr h f).trans hf⟩

/-- The exhausted iterator runs to the empty sequence. -/
theorem RunsTo_nil (st : Store T) : RunsTo st [] [] :=
  RunsTo_of_none (DfsIter.next_nil st)

/-- A run's emitted sequence is unique. -/
theorem RunsTo_det {st : Store T} {s : List Frame} {l1 l2 : List NodeRef}
    (h1 : RunsTo st s l1) (h2 : RunsTo st s l2) : l1 = l2 := by
  obtain ⟨f1, hf1⟩ := h1
  obtain ⟨f2, hf2⟩ := h2
  exact DfsIter.runTo_det hf1 hf2

/-! ## `add_edge` -/

/-- Out-of-range lookups cannot produce a node. -/
theorem lt_length_of_getElem? {st : Store T} {n : NodeRef} {nd : Node T}
    (hg : st[n]? = some nd) : n < st.length := by
  by_contra hge
  rw [List.getElem?_eq_none (Nat.le_of_not_lt hge)] at hg
  exact Option.noConfusion hg

/-- `add_edge` rewrites exactly one arena slot: the node's datum is kept
and `edge` is pushed at the end of its (possibly absent) edge list. -/
theorem add_edge_set {st : Store T} {n : NodeRef} {nd : Node T}
    (hg : st[n]? = some nd) (t : NodeRef) :
    (Node.add_edge st n t).1
      = st.set n { nd with edges := some (nd.edges.getD [] ++ [t]) } := by
  have hlt : n < st.length := lt_length_of_getElem? hg
  unfold Node.add_edge takeEdges replaceEdges
  rw [hg]
  dsimp only
  rw [List.getElem?_set_self (by simpa using hlt)]
  dsimp only
  rw [List.set_set]

/-- Edge lists accumulated by a sequence of `add_edge` calls: the targets
are appended in call order after whatever was there before. -/
theorem addEdges_edgesOf {st : Store T} {n : NodeRef} {nd : Node T}
    (hg : st[n]? = some nd) (ts : List NodeRef) :
    edgesOf (Node.addEdges st n ts) n = nd.edges.getD [] ++ ts := by
  induction ts generalizing st nd with
  | nil => simp [Node.addEdges, edgesOf, hg]
  | cons t ts ih =>
    have hlt : n < st.length := lt_length_of_getElem? hg
    have h1 := add_edge_set hg t
    have hg' : ((Node.add_edge st n t).1)[n]?
        = some { nd with edges := some (nd.edges.getD [] ++ [t]) } := by
      rw [h1]
      exact List.getElem?_set_self (by simpa using hlt)
    have step : Node.addEdges st n (t :: ts)
        = Node.addEdges (Node.add_edge st n t).1 n ts := by
      simp [Node.addEdges]
    rw [step, ih hg']
    simp

/-- C5: `add_edge(t)` on node `n` appends `t` at the end of `n`'s edge
list leaving all earlier edges in place and in order, changes no other
arena slot and not `n`'s datum, returns `t`, and never fails; after `k`
`add_edge` calls against a node freshly built by `Node::new`, the edge
list is exactly the `k` targets in call order. -/
theorem c5_add_edge_appends (T : Type) (st : Store T) (n t : NodeRef)
    (h : n < st.length) :
    edgesOf (Node.add_edge st n t).1 n = edgesOf st n ++ [t] ∧
    (Node.add_edge st n t).2 = t ∧
    datumOf (Node.add_edge st n t).1 n = datumOf st n ∧
    (∀ m, m ≠ n → ((Node.add_edge st n t).1)[m]? = st[m]?) ∧
    (∀ (d : T) (ts : List NodeRef), st[n]? = some (Node.new d) →
      edgesOf (Node.addEdges st n ts) n = ts) := by
  obtain ⟨nd, hg⟩ : ∃ nd, st[n]? = some nd := ⟨st[n], List.getElem?_eq_getElem h⟩
  have hset := add_edge_set hg t
  refine ⟨?_, rfl, ?_, ?_, ?_⟩
  · rw [hset]
    simp [edgesOf, List.getElem?_set_self (by simpa using h), hg]
  · rw [hset]
    simp [datumOf, List.getElem?_set_self (by simpa using h), hg]
  · intro m hm
    rw [hset]
    exact List.getElem?_set_ne (fun e => hm e.symm)
  · intro d ts hfresh
    rw [addEdges_edgesOf hfresh ts]
    simp [Node.new]

/-- C5 witness: a two-slot arena; appending 9 to node 0's list `[1]`
yields `[1, 9]`, slot 1 is untouched, and three calls against the fresh
node 1 leave `[5, 5, 7]`. -/
theorem c5_witness :
    edgesOf (Node.add_edge [⟨10, some [1]⟩, (Node.new 20 : Node Nat)] 0 9).1 0
        = [1, 9] ∧
    edgesOf (Node.addEdges [⟨10, some [1]⟩, (Node.new 20 : Node Nat)] 1 [5, 5, 7]) 1
        = [5, 5, 7] := by
  constructor
  · exact (c5_add_edge_appends Nat [⟨10, some [1]⟩, Node.new 20] 0 9 (by decide)).1
  · exact (c5_add_edge_appends Nat [⟨10, some [1]⟩, Node.new 20] 1 0 (by decide)).2.2.2.2
      20 [5, 5, 7] (by decide)

/-! ## Graph root -/

/-- C3: `root()` on a Graph on which no root has been set — in particular
a freshly constructed one — fails with the "root not set" panic (modelled
by `none`); after `set_root(n)`, `root()` returns exactly the `n` most
recently passed, whatever was set before. -/
theorem c3_root_unset_then_set (T : Type) :
    (Graph.new (T := T)).root = none ∧
    (∀ (g : Graph T) (n : NodeRef), ((g.set_root n).1).root = some n) ∧
    (∀ (g : Graph T) (m n : NodeRef),
      ((((g.set_root m).1).set_root n).1).root = some n) ∧
    (∀ (g : Graph T) (n : NodeRef), (g.set_root n).2 = n) :=
  ⟨rfl, fun _ _ => rfl, fun _ _ _ => rfl, fun _ _ => rfl⟩

/-! ## The iterator leaves the arena as it found it -/

/-- C7: after any number `k` of `next()` calls — in particular when the
iterator is abandoned before exhaustion — the store, and with it every
node's edge list, is exactly what it was before iteration began: inside
each call every `take` was paired with a `replace` of the same list. -/
theorem c7_iteration_restores_store (T : Type) (st : Store T)
    (stack : List Frame) (k : Nat) :
    (DfsIter.stepsCell st stack k).1 = st := by
  induction k generalizing st stack with
  | zero => rfl
  | succ k ih =>
    rw [DfsIter.stepsCell]
    rw [DfsIter.nextCell_store]
    exact ih st _

/-! ## Exhaustion is absorbing -/

/-- `next` signals exhaustion only after draining the whole stack. -/
theorem nextCell_none_empty (st : Store T) (stack : List Frame) :
    (DfsIter.nextCell st stack).2.1 = none → (DfsIter.nextCell st stack).2.2 = [] := by
  induction st, stack using DfsIter.nextCell.induct with
  | case1 st => intro; rw [DfsIter.nextCell.eq_def]
  | case2 st idx n rest st1 h =>
    rw [DfsIter.nextCell.eq_def]
    simp only [h]
    intro hc
    exact absurd hc (by simp)
  | case3 st n rest st1 edges h =>
    rw [DfsIter.nextCell.eq_def]
    simp only [h]
    intro hc
    exact absurd hc (by simp)
  | case4 st n rest st1 edges h i hi ih =>
    rw [DfsIter.nextCell.eq_def]
    simp only [h]
    rw [dif_pos hi]
    exact ih
  | case5 st n rest st1 edges h i hi ih =>
    rw [DfsIter.nextCell.eq_def]
    simp only [h]
    rw [dif_neg hi]
    exact ih

/-- C10: once `next()` returns no value its stack is empty, and the
empty-stack state is absorbing: `next()` on the empty stack returns no
value and leaves the stack empty, so the iterator never resumes emitting
after signalling exhaustion. -/
theorem c10_exhaustion_absorbing (T : Type) (st : Store T) :
    (∀ stack, (DfsIter.next st stack).1 = none → (DfsIter.next st stack).2 = []) ∧
    DfsIter.next st [] = (none, []) ∧
    (∀ k, DfsIter.stepsCell st [] k = (st, [])) := by
  refine ⟨fun stack => nextCell_none_empty st stack, DfsIter.next_nil st, ?_⟩
  intro k
  induction k with
  | zero => rfl
  | succ k ih =>
    rw [DfsIter.stepsCell]
    rw [DfsIter.nextCell.eq_def]
    exact ih

/-- C10 witness: on a one-node store whose iterator is already exhausted
(empty stack), `next` keeps returning no value with an empty stack. -/
theorem c10_witness :
    (DfsIter.next [(Node.new 5 : Node Nat)] []).2 = [] ∧
    DfsIter.next [(Node.new 5 : Node Nat)] [] = (none, []) := by
  constructor
  · exact (c10_exhaustion_absorbing Nat [Node.new 5]).1 []
      (by rw [DfsIter.next_nil])
  · exact (c10_exhaustion_absorbing Nat [Node.new 5]).2.1

/-! ## The worked example (C1) -/

/-- C1: for the graph built as root(1) with children (2,3) appended in
that order and node 2 with children (4,5) appended in that order,
`dfs()` from the root emits exactly five nodes carrying the data
[1, 2, 4, 5, 3] and then signals exhaustion: pre-order depth-first
emission, children in edge-insertion order, each subtree fully exhausted
before the next sibling begins. -/
theorem c1_dfs_example_sequence :
    exampleGraph.root = some 0 ∧
    DfsIter.runTo exampleGraph.arena 9 (Node.dfs 0) = some [0, 1, 3, 4, 2] ∧
    [0, 1, 3, 4, 2].map (datumOf exampleGraph.arena)
      = [some 1, some 2, some 4, some 5, some 3] := by
  refine ⟨by decide, ?_, by decide⟩
  have harena : exampleGraph.arena
      = [⟨1, some [1, 2]⟩, ⟨2, some [3, 4]⟩, ⟨3, none⟩, ⟨4, none⟩, ⟨5, none⟩] := by
    decide
  rw [harena]
  simp [DfsIter.runTo, Node.dfs, DfsIter.next_nil, DfsIter.next_emit,
    DfsIter.next_enter, DfsIter.next_child, DfsIter.next_done, cellOf, edgesOf]

/-! ## `from_iter` (C4) -/

/-- Draining a list iterator consumes every element, given fuel at least
the list's length. -/
theorem drainAll_listIter (A : Type) :
    ∀ (fuel : Nat) (t : List A), t.length ≤ fuel →
      drainAll listIter fuel t = some [] := by
  intro fuel
  induction fuel with
  | zero =>
    intro t ht
    match t with
    | [] => rfl
  | succ fuel ih =>
    intro t ht
    match t with
    | [] => rfl
    | a :: t =>
      have : t.length ≤ fuel := by simpa using ht
      simpa [drainAll, listIter] using ih t this

/-- C4: the root-from-sequence collector returns exactly the first
reference the sequence produces, after draining every remaining element
(applying no operation beyond advancing the iterator), and it fails —
the `unwrap` panic, modelled `none` — precisely when the sequence
produces nothing.  On list iterators: the whole tail is consumed and the
head is returned; the empty list fails. -/
theorem c4_from_iter_first_then_drain (S A : Type) (step : S → Option (A × S))
    (fuel : Nat) (s : S) :
    (step s = none → from_iter step fuel s = none) ∧
    (∀ (a : A) (s1 s2 : S), step s = some (a, s1) →
      drainAll step fuel s1 = some s2 → from_iter step fuel s = some (a, s2)) ∧
    (∀ (a : A) (t : List A), t.length ≤ fuel →
      from_iter listIter fuel (a :: t) = some (a, [])) ∧
    from_iter listIter fuel ([] : List A) = none := by
  refine ⟨?_, ?_, ?_, ?_⟩
  · intro h
    simp [from_iter, h]
  · intro a s1 s2 h hd
    simp [from_iter, h, hd]
  · intro a t ht
    simp [from_iter, listIter, drainAll_listIter A fuel t ht]
  · simp [from_iter, listIter]

/-- C4 witness: over `[5, 6, 7]` the collector returns 5 having consumed
`[6, 7]`; over `[]` it fails. -/
theorem c4_witness :
    from_iter listIter 2 [5, 6, 7] = some (5, ([] : List Nat)) ∧
    from_iter listIter 2 ([] : List Nat) = none := by
  constructor
  · exact (c4_from_iter_first_then_drain (List Nat) Nat listIter 2 [5, 6, 7]).2.1
      5 [6, 7] [] rfl (by decide)
  · exact (c4_from_iter_first_then_drain (List Nat) Nat listIter 2 []).2.2.2

/-! ## Cycle-safe traversal (C9, modelled from the spec) -/

/-- Invariants of `Node.traverse`: the visited set only grows, the callback log
is duplicate-free, contains only data not yet visited at entry, and every
logged datum is in the final visited set. -/
theorem traverse_invariant [DecidableEq T] (st : Store T) :
    ∀ (fuel : Nat) (visited : List T) (n : NodeRef),
      (∀ x ∈ visited, x ∈ (Node.traverse st fuel visited n).1) ∧
      (∀ x ∈ (Node.traverse st fuel visited n).2, x ∉ visited) ∧
      (Node.traverse st fuel visited n).2.Nodup ∧
      (∀ x ∈ (Node.traverse st fuel visited n).2, x ∈ (Node.traverse st fuel visited n).1) := by
  intro fuel
  induction fuel with
  | zero => intro visited n; simp [Node.traverse]
  | succ fuel ih =>
    have aux : ∀ (cs : List NodeRef) (v log : List T),
        log.Nodup → (∀ x ∈ log, x ∈ v) →
        ((cs.foldl
            (fun acc c =>
              let r := Node.traverse st fuel acc.1 c
              (r.1, acc.2 ++ r.2))
            (v, log)).2.Nodup ∧
          (∀ x ∈ (cs.foldl
            (fun acc c =>
              let r := Node.traverse st fuel acc.1 c
              (r.1, acc.2 ++ r.2))
            (v, log)).2, x ∈ (cs.foldl
            (fun acc c =>
              let r := Node.traverse st fuel acc.1 c
              (r.1, acc.2 ++ r.2))
            (v, log)).1) ∧
          (∀ x ∈ v, x ∈ (cs.foldl
            (fun acc c =>
              let r := Node.traverse st fuel acc.1 c
              (r.1, acc.2 ++ r.2))
            (v, log)).1) ∧
          (∀ x ∈ (cs.foldl
            (fun acc c =>
              let r := Node.traverse st fuel acc.1 c
              (r.1, acc.2 ++ r.2))
            (v, log)).2, x ∈ log ∨ x ∉ v)) := by
      intro cs
      induction cs with
      | nil =>
        intro v log hnd hsub
        refine ⟨hnd, ?_, ?_, ?_⟩
        · intro x hx; exact hsub x hx
        · intro x hx; exact hx
        · intro x hx; exact Or.inl hx
      | cons c cs ihc =>
        intro v log hnd hsub
        simp only [List.foldl_cons]
        obtain ⟨hmono, hfresh, hnd1, hsub1⟩ := ih v c
        have hnd2 : (log ++ (Node.traverse st fuel v c).2).Nodup := by
          rw [List.nodup_append]
          exact ⟨hnd, hnd1, fun x hx hx2 => (hfresh x hx2) (hsub x hx)⟩
        have hsub2 : ∀ x ∈ log ++ (Node.traverse st fuel v c).2,
            x ∈ (Node.traverse st fuel v c).1 := by
          intro x hx
          rcases List.mem_append.1 hx with hx | hx
          · exact hmono x (hsub x hx)
          · exact hsub1 x hx
        obtain ⟨r1, r2, r3, r4⟩ :=
          ihc (Node.traverse st fuel v c).1 (log ++ (Node.traverse st fuel v c).2) hnd2 hsub2
        refine ⟨r1, r2, ?_, ?_⟩
        · intro x hx
          exact r3 x (hmono x hx)
        · intro x hx
          rcases r4 x hx with hx2 | hx2
          · rcases List.mem_append.1 hx2 with hx3 | hx3
            · exact Or.inl hx3
            · exact Or.inr (hfresh x hx3)
          · exact Or.inr (fun hv => hx2 (hmono x hv))
    intro visited n
    cases hg : st[n]? with
    | none => simp [Node.traverse, hg]
    | some nd =>
      by_cases hd : nd.datum ∈ visited
      · simp [Node.traverse, hg, hd]
      · have heq : Node.traverse st (fuel + 1) visited n
            = (nd.edges.getD []).foldl
                (fun acc c =>
                  let r := Node.traverse st fuel acc.1 c
                  (r.1, acc.2 ++ r.2))
                (nd.datum :: visited, [nd.datum]) := by
          rw [Node.traverse, hg]
          simp [hd]
        rw [heq]
        obtain ⟨r1, r2, r3, r4⟩ :=
          aux (nd.edges.getD []) (nd.datum :: visited) [nd.datum]
            (by simp) (by simp)
        refine ⟨?_, ?_, r1, r2⟩
        · intro x hx
          exact r3 x (List.mem_cons_of_mem _ hx)
        · intro x hx
          rcases r4 x hx with h4 | h4
          · rw [List.mem_singleton] at h4
            rw [h4]; exact hd
          · exact fun hv => h4 (List.mem_cons_of_mem _ hv)

/-- C9: the (spec-modelled) cycle-safe `Node.traverse(callback)` walks edges in
insertion order under a visited set keyed on datum equality, invoking the
callback on each distinct datum value at most once per run, and on the
2-cycle A→B→A rooted at A it invokes the callback on A's datum then B's
datum and returns — for every recursion-depth budget beyond the cycle's
depth, so the visited set, not the budget, is what stops it. -/
theorem c9_traverse_cycle_safe :
    (∀ (T : Type) [DecidableEq T] (st : Store T) (fuel : Nat) (n : NodeRef),
      (Node.traverse st fuel [] n).2.Nodup) ∧
    (∀ fuel : Nat, (Node.traverse cycleStore (fuel + 3) [] 0).2 = [10, 20]) := by
  constructor
  · intro T _ st fuel n
    exact (traverse_invariant st fuel [] n).2.2.1
  · intro fuel
    simp [Node.traverse, cycleStore]


/-! ## The mapped/collected graph (C8) -/

/-- The example arena, listed slot by slot. -/
theorem exampleGraph_arena : exampleGraph.arena
    = [⟨1, some [1, 2]⟩, ⟨2, some [3, 4]⟩, ⟨3, none⟩, ⟨4, none⟩, ⟨5, none⟩] := by
  decide

/-- The dfs run over the example graph. -/
theorem exampleGraph_run :
    DfsIter.runTo exampleGraph.arena 9 (Node.dfs 0) = some [0, 1, 3, 4, 2] := by
  rw [exampleGraph_arena]
  simp [DfsIter.runTo, Node.dfs, DfsIter.next_nil, DfsIter.next_emit,
    DfsIter.next_enter, DfsIter.next_child, DfsIter.next_done, cellOf, edgesOf]

/-- C8 amended: mapping each datum of a graph's `dfs()` output and
collecting the freshly allocated references roots the new graph at the
node made for the first emitted datum; the new arena carries the
transformed data in emission order, but every new node has an empty edge
list, so the collected graph's own dfs emits exactly its root — the
result is *not* an isomorphic copy of the input tree (except for
single-node inputs). -/
theorem c8_mapCollect_flat (T U : Type) [Inhabited T] (st : Store T) (r : NodeRef)
    (f : T → U) (fuel : Nat) (i : NodeRef) (ids : List NodeRef)
    (h : DfsIter.runTo st fuel (Node.dfs r) = some (i :: ids)) :
    mapCollect st r f fuel
      = some ({ arena := (i :: ids).map fun j => Node.new (f ((datumOf st j).getD default)),
                rootCell := some 0 }, 0) ∧
    ((i :: ids).map fun j => Node.new (f ((datumOf st j).getD default))).map Node.datum
      = (i :: ids).map (fun j => f ((datumOf st j).getD default)) ∧
    (∀ j, edgesOf ((i :: ids).map fun j => Node.new (f ((datumOf st j).getD default))) j
      = []) ∧
    DfsIter.runTo ((i :: ids).map fun j => Node.new (f ((datumOf st j).getD default))) 1
      (Node.dfs 0) = some [0] := by
  have hedge : ∀ j,
      edgesOf ((i :: ids).map fun j => Node.new (f ((datumOf st j).getD default))) j
        = [] := by
    intro j
    simp only [edgesOf, List.getElem?_map]
    cases (i :: ids)[j]? <;> simp [Node.new]
  refine ⟨?_, ?_, hedge, ?_⟩
  · simp [mapCollect, h, Graph.set_root]
  · simp [Node.new]
  · have hcell : cellOf
        (Node.new (f ((datumOf st i).getD default))
          :: ids.map fun j => Node.new (f ((datumOf st j).getD default))) 0
        = none := by
      simp [cellOf, Node.new]
    simp [Node.dfs, DfsIter.runTo, DfsIter.next_emit none [] hcell,
      DfsIter.next_nil]

/-- C8 counterexample: for the five-node example tree with map d ↦ 2*d,
the collected graph is `mappedExample`: its root has no edges (the input
root has two), and its dfs emits one value where the input emits five —
it is not an isomorphic tree with identical edge-insertion order. -/
theorem c8_counterexample :
    mapCollect exampleGraph.arena 0 (fun d => 2 * d) 9 = some (mappedExample, 0) ∧
    edgesOf exampleGraph.arena 0 = [1, 2] ∧
    edgesOf mappedExample.arena 0 = [] ∧
    DfsIter.runTo mappedExample.arena 9 (Node.dfs 0) = some [0] ∧
    DfsIter.runTo exampleGraph.arena 9 (Node.dfs 0) = some [0, 1, 3, 4, 2] := by
  refine ⟨?_, by rw [exampleGraph_arena]; decide, by decide, ?_, exampleGraph_run⟩
  · rw [mapCollect, exampleGraph_run]
    rw [exampleGraph_arena]
    simp [Graph.set_root, mappedExample, datumOf, Node.new]
  · have hcell : cellOf mappedExample.arena 0 = none := by decide
    simp [Node.dfs, DfsIter.runTo, DfsIter.next_emit none [] hcell,
      DfsIter.next_nil]

/-- C8 witness (for the amended statement): the example graph with map
d ↦ 3*d. -/
theorem c8_witness :
    mapCollect exampleGraph.arena 0 (fun d => 3 * d) 9
      = some ({ arena := [Node.new 3, Node.new 6, Node.new 12, Node.new 15, Node.new 9],
                rootCell := some 0 }, 0) := by
  have h := (c8_mapCollect_flat Nat Nat exampleGraph.arena 0 (fun d => 3 * d) 9
    0 [1, 3, 4, 2] exampleGraph_run).1
  rw [h]
  rw [exampleGraph_arena]
  rfl


/-! ## Termination and path semantics of the DFS iterator (C2, C6) -/

/-- `edgesOf` is the cell contents, defaulting to the empty list. -/
theorem edgesOf_eq_cellOf (st : Store T) (n : NodeRef) :
    edgesOf st n = (cellOf st n).getD [] := rfl

/-- A node with no (stored) edges expands to itself alone. -/
theorem flatten_leaf {st : Store T} {n : NodeRef} (h : edgesOf st n = [])
    (fuel : Nat) : flatten st fuel n = [n] := by
  cases fuel <;> simp [flatten, h]

/-- Depth budgets only help. -/
theorem fuelOK_mono (st : Store T) : ∀ (fuel : Nat) (n : NodeRef),
    fuelOK st fuel n → fuelOK st (fuel + 1) n := by
  intro fuel
  induction fuel with
  | zero =>
    intro n h
    simp only [fuelOK] at h ⊢
    intro c hc
    rw [h] at hc
    exact absurd hc (List.not_mem_nil c)
  | succ f ihf =>
    intro n h
    simp only [fuelOK] at h ⊢
    intro c hc
    exact ihf c (h c hc)

theorem fuelOK_le (st : Store T) {f1 f2 : Nat} (h : f1 ≤ f2) {n : NodeRef}
    (hok : fuelOK st f1 n) : fuelOK st f2 n := by
  induction h with
  | refl => exact hok
  | step _ ih => exact fuelOK_mono st _ _ ih

/-- A single depth budget works for a whole list of nodes. -/
theorem fuelOK_list (st : Store T) :
    ∀ (cs : List NodeRef), (∀ c ∈ cs, ∃ f, fuelOK st f c) →
      ∃ F, ∀ c ∈ cs, fuelOK st F c := by
  intro cs
  induction cs with
  | nil => exact fun _ => ⟨0, by simp⟩
  | cons c cs ihc =>
    intro h
    obtain ⟨f1, hf1⟩ := h c (List.mem_cons_self c cs)
    obtain ⟨F, hF⟩ := ihc (fun d hd => h d (List.mem_cons_of_mem c hd))
    refine ⟨max f1 F, ?_⟩
    intro d hd
    rcases List.mem_cons.1 hd with rfl | hd
    · exact fuelOK_le st (Nat.le_max_left f1 F) hf1
    · exact fuelOK_le st (Nat.le_max_right f1 F) (hF d hd)

/-- Main correspondence: with a sufficient depth budget for `n`, pushing
`(None, n)` on top of a stack prepends `n`'s full pre-order expansion to
whatever the rest of the stack runs to. -/
theorem runs_flatten (st : Store T) :
    ∀ (fuel : Nat) (n : NodeRef), fuelOK st fuel n →
      ∀ (rest : List Frame) (lrest : List NodeRef), RunsTo st rest lrest →
        RunsTo st ((none, n) :: rest) (flatten st fuel n ++ lrest) := by
  intro fuel
  induction fuel using Nat.strong_induction_on with
  | _ fuel ih =>
    intro n hok rest lrest hrest
    cases hc : cellOf st n with
    | none =>
      have hes : edgesOf st n = [] := by rw [edgesOf_eq_cellOf, hc]; rfl
      rw [flatten_leaf hes fuel]
      exact RunsTo_step (DfsIter.next_emit none rest hc) hrest
    | some es =>
      have hsome : (cellOf st n).isSome := by rw [hc]; rfl
      obtain ⟨cf, hchild, hfl⟩ :
          ∃ cf, (∀ c ∈ edgesOf st n,
              ∀ (r2 : List Frame) (l2 : List NodeRef), RunsTo st r2 l2 →
                RunsTo st ((none, c) :: r2) (flatten st cf c ++ l2)) ∧
            flatten st fuel n
              = n :: ((edgesOf st n).map (flatten st cf)).flatten := by
        cases fuel with
        | zero =>
          simp only [fuelOK] at hok
          refine ⟨0, ?_, ?_⟩
          · intro c hcmem
            rw [hok] at hcmem
            exact absurd hcmem (List.not_mem_nil c)
          · simp [flatten, hok]
        | succ f =>
          simp only [fuelOK] at hok
          refine ⟨f, ?_, rfl⟩
          intro c hcmem r2 l2 h2
          exact ih f (Nat.lt_succ_self f) c (hok c hcmem) r2 l2 h2
      have inner : ∀ (k i : Nat), (edgesOf st n).length ≤ i + k →
          RunsTo st ((some i, n) :: rest)
            ((((edgesOf st n).drop i).map (flatten st cf)).flatten ++ lrest) := by
        intro k
        induction k with
        | zero =>
          intro i hik
          have hge : ¬ i < (edgesOf st n).length := by omega
          have hdrop : (edgesOf st n).drop i = [] :=
            List.drop_eq_nil_of_le (by omega)
          rw [hdrop]
          simp only [List.map_nil, List.flatten_nil, List.nil_append]
          exact RunsTo_congr (DfsIter.next_done rest hsome hge) hrest
        | succ k ihk =>
          intro i hik
          by_cases hlt : i < (edgesOf st n).length
          · have hstep := DfsIter.next_child rest hlt
            have htail := ihk (i + 1) (by omega)
            have hchildRun := hchild ((edgesOf st n).get ⟨i, hlt⟩)
              (List.get_mem _ _ _) ((some (i + 1), n) :: rest)
              ((((edgesOf st n).drop (i + 1)).map (flatten st cf)).flatten ++ lrest)
              htail
            have hdrop : (edgesOf st n).drop i
                = (edgesOf st n).get ⟨i, hlt⟩ :: (edgesOf st n).drop (i + 1) := by
              rw [List.drop_eq_getElem_cons hlt]
              rfl
            rw [hdrop]
            simp only [List.map_cons, List.flatten_cons, List.append_assoc]
            exact RunsTo_congr hstep hchildRun
          · have hdrop : (edgesOf st n).drop i = [] :=
              List.drop_eq_nil_of_le (by omega)
            rw [hdrop]
            simp only [List.map_nil, List.flatten_nil, List.nil_append]
            exact RunsTo_congr (DfsIter.next_done rest hsome hlt) hrest
      have h0 := inner (edgesOf st n).length 0 (by omega)
      rw [List.drop_zero] at h0
      have hrun := RunsTo_step (DfsIter.next_enter rest hsome) h0
      rw [hfl]
      simpa using hrun

/-- Only stored nodes have outgoing edges. -/
theorem edgeTo_src_lt {st : Store T} {a b : NodeRef} (h : edgeTo st a b) :
    a < st.length := by
  rcases hg : st[a]? with _ | nd
  · rw [edgeTo, edgesOf, hg] at h
    simp at h
  · exact lt_length_of_getElem? hg

/-- With in-range edges and no reachable cycle, the reachable child
relation is well-founded. -/
theorem childRelR_wf (st : Store T) (r : NodeRef) (hrange : EdgesInRange st)
    (hacyc : AcyclicFrom st r) : WellFounded (childRelR st r) := by
  have hproj : ∀ (x y : Fin (st.length + 1)),
      Relation.TransGen (finRel st r) x y →
        Relation.TransGen (childRelR st r) x.val y.val := by
    intro x y h
    induction h with
    | single h => exact Relation.TransGen.single h
    | tail _ h ih => exact Relation.TransGen.tail ih h
  have hcyc : ∀ n, ¬ Relation.TransGen (childRelR st r) n n := by
    intro n hn
    obtain ⟨b, _, hlast⟩ := Relation.TransGen.tail'_iff.1 hn
    have hreach : Reaches st r n := hlast.2
    have hswap : Relation.TransGen (Function.swap (edgeTo st)) n n :=
      Relation.TransGen.mono (fun x y h => h.1) hn
    exact hacyc n hreach (Relation.transGen_swap.1 hswap)
  have hirr : IsIrrefl (Fin (st.length + 1)) (Relation.TransGen (finRel st r)) :=
    ⟨fun x hx => hcyc x.val (hproj x x hx)⟩
  have hwfT : WellFounded (Relation.TransGen (finRel st r)) := by
    exact @Finite.wellFounded_of_trans_of_irrefl _ _ _
      (inferInstance) hirr
  have hwfrel : WellFounded (finRel st r) :=
    Subrelation.wf (fun h => Relation.TransGen.single h) hwfT
  have hsub : ∀ {b a : NodeRef}, childRelR st r b a →
      InvImage (finRel st r) (finProj st) b a := by
    intro b a h
    obtain ⟨hedge, hreach⟩ := h
    have hb : b < st.length := hrange a b hedge
    have ha : a < st.length := edgeTo_src_lt hedge
    show finRel st r (finProj st b) (finProj st a)
    show childRelR st r (finProj st b).val (finProj st a).val
    have hfb : (finProj st b).val = b := Nat.min_eq_left (Nat.le_of_lt hb)
    have hfa : (finProj st a).val = a := Nat.min_eq_left (Nat.le_of_lt ha)
    rw [hfb, hfa]
    exact ⟨hedge, hreach⟩
  exact Subrelation.wf hsub (InvImage.wf (finProj st) hwfrel)

/-- Every node reachable from `r` in an in-range, reachable-cycle-free
store admits a sufficient depth budget. -/
theorem fuelOK_exists (st : Store T) (r : NodeRef) (hrange : EdgesInRange st)
    (hacyc : AcyclicFrom st r) :
    ∀ n, Reaches st r n → ∃ fuel, fuelOK st fuel n := by
  have hwf := childRelR_wf st r hrange hacyc
  intro n
  have H : ∀ m, (∀ b, childRelR st r b m → (Reaches st r b → ∃ f, fuelOK st f b)) →
      (Reaches st r m → ∃ f, fuelOK st f m) := by
    intro m ih hreach
    have hch : ∀ c ∈ edgesOf st m, ∃ f, fuelOK st f c := by
      intro c hc
      exact ih c ⟨hc, hreach⟩ (hreach.tail hc)
    obtain ⟨F, hF⟩ := fuelOK_list st (edgesOf st m) hch
    refine ⟨F + 1, ?_⟩
    simp only [fuelOK]
    exact hF
  exact @WellFounded.induction _ _ hwf
    (fun q => Reaches st r q → ∃ f, fuelOK st f q) n H

/-- C6: on a store whose edges stay in range and with no cycle reachable
from the start node, the dfs() iterator terminates: after finitely many
values it signals exhaustion (its internal stack runs empty). -/
theorem c6_dfs_terminates_acyclic (T : Type) (st : Store T) (r : NodeRef)
    (hrange : EdgesInRange st) (hacyc : AcyclicFrom st r) :
    ∃ (fuel : Nat) (l : List NodeRef),
      DfsIter.runTo st fuel (Node.dfs r) = some l := by
  obtain ⟨df, hdf⟩ := fuelOK_exists st r hrange hacyc r Relation.ReflTransGen.refl
  obtain ⟨F, hF⟩ := runs_flatten st df r hdf [] [] (RunsTo_nil st)
  exact ⟨F, flatten st df r ++ [], hF⟩

/-- C6 witness: a one-node, edge-free store. -/
theorem c6_witness :
    ∃ (fuel : Nat) (l : List NodeRef),
      DfsIter.runTo [(Node.new 7 : Node Nat)] fuel (Node.dfs 0) = some l := by
  have hnoedge : ∀ a b, ¬ edgeTo [(Node.new 7 : Node Nat)] a b := by
    intro a b h
    rcases a with _ | a <;> simp [edgeTo, edgesOf, Node.new] at h
  refine c6_dfs_terminates_acyclic Nat [Node.new 7] 0 ?_ ?_
  · intro a b h
    exact absurd h (hnoedge a b)
  · intro n _ h
    cases h with
    | single h1 => exact hnoedge _ _ h1
    | tail _ h1 => exact hnoedge _ _ h1

/-- Enumerated paths are never empty. -/
theorem paths_ne_nil (st : Store T) :
    ∀ (fuel : Nat) (n : NodeRef), ∀ p ∈ paths st fuel n, p ≠ [] := by
  intro fuel
  induction fuel with
  | zero =>
    intro n p hp
    simp only [paths, List.mem_singleton] at hp
    rw [hp]
    simp
  | succ f ihf =>
    intro n p hp
    simp only [paths, List.mem_cons] at hp
    rcases hp with rfl | hp
    · simp
    · rw [List.mem_flatten] at hp
      obtain ⟨blk, hblk, hpblk⟩ := hp
      rw [List.mem_map] at hblk
      obtain ⟨c, hc, rfl⟩ := hblk
      rw [List.mem_map] at hpblk
      obtain ⟨q, hq, rfl⟩ := hpblk
      simp

/-- The endpoints of the enumerated paths, in enumeration order, are
exactly the pre-order expansion: one emission per path. -/
theorem paths_headD (st : Store T) :
    ∀ (fuel : Nat) (n : NodeRef),
      (paths st fuel n).map (fun p => p.headD 0) = flatten st fuel n := by
  intro fuel
  induction fuel with
  | zero => intro n; simp [paths, flatten]
  | succ f ihf =>
    intro n
    simp only [paths, flatten, List.map_cons, List.headD_cons]
    congr 1
    rw [List.map_flatten]
    congr 1
    rw [List.map_map]
    apply List.map_congr_left
    intro c hc
    show ((paths st f c).map (· ++ [n])).map (fun p => p.headD 0) = flatten st f c
    rw [List.map_map, ← ihf c]
    apply List.map_congr_left
    intro q hq
    have hne := paths_ne_nil st f c q hq
    cases q with
    | nil => exact absurd rfl hne
    | cons a t => rfl

/-- Every enumerated path is a genuine directed path: it starts (in list
order, ends) at `n` and each consecutive pair is joined by a stored edge,
walked from origin to endpoint. -/
theorem paths_sound (st : Store T) :
    ∀ (fuel : Nat) (n : NodeRef), ∀ p ∈ paths st fuel n,
      p.getLast? = some n ∧ List.Chain' (fun a b => edgeTo st b a) p := by
  intro fuel
  induction fuel with
  | zero =>
    intro n p hp
    simp only [paths, List.mem_singleton] at hp
    subst hp
    exact ⟨rfl, List.chain'_singleton n⟩
  | succ f ihf =>
    intro n p hp
    simp only [paths, List.mem_cons] at hp
    rcases hp with rfl | hp
    · exact ⟨rfl, List.chain'_singleton n⟩
    · rw [List.mem_flatten] at hp
      obtain ⟨blk, hblk, hpblk⟩ := hp
      rw [List.mem_map] at hblk
      obtain ⟨c, hc, rfl⟩ := hblk
      rw [List.mem_map] at hpblk
      obtain ⟨q, hq, rfl⟩ := hpblk
      obtain ⟨hlast, hchain⟩ := ihf c q hq
      refine ⟨List.getLast?_concat q, ?_⟩
      rw [List.chain'_append]
      refine ⟨hchain, List.chain'_singleton n, ?_⟩
      intro x hx y hy
      rw [hlast] at hx
      simp only [Option.mem_def, Option.some.injEq] at hx
      simp only [List.head?_cons, Option.mem_def, Option.some.injEq] at hy
      rw [← hx, ← hy]
      exact hc

/-- The dfs run over the diamond. -/
theorem diamond_run :
    DfsIter.runTo diamondStore 9 (Node.dfs 0) = some [0, 1, 3, 2, 3] := by
  simp [DfsIter.runTo, Node.dfs, DfsIter.next_nil, DfsIter.next_emit,
    DfsIter.next_enter, DfsIter.next_child, DfsIter.next_done, cellOf, edgesOf,
    diamondStore]

/-- Depth 2 expands the whole diamond. -/
theorem diamond_fuelOK : fuelOK diamondStore 2 0 := by
  simp only [fuelOK, edgesOf, diamondStore]
  decide

/-- C2: with a sufficient depth budget the dfs() output *is* the
pre-order path enumeration — one emission per (node, path) pair, no
memoization, no visited set: every enumerated path is a genuine directed
path from the start node (origin written last, endpoint first), and the
emitted sequence is exactly the sequence of those paths' endpoints in
enumeration order.  On the diamond root→{a,b}, a→c, b→c the run is
root, a, c, b, c: the shared node c is emitted exactly twice, once per
distinct incoming path. -/
theorem c2_dfs_once_per_path (T : Type) (st : Store T) (r : NodeRef)
    (dfuel rfuel : Nat) (l : List NodeRef)
    (hok : fuelOK st dfuel r)
    (hrun : DfsIter.runTo st rfuel (Node.dfs r) = some l) :
    l = flatten st dfuel r ∧
    (paths st dfuel r).map (fun p => p.headD 0) = l ∧
    (∀ p ∈ paths st dfuel r,
      p.getLast? = some r ∧ List.Chain' (fun a b => edgeTo st b a) p) ∧
    DfsIter.runTo diamondStore 9 (Node.dfs 0) = some [0, 1, 3, 2, 3] ∧
    [0, 1, 3, 2, 3].map (datumOf diamondStore)
      = [some 100, some 101, some 103, some 102, some 103] ∧
    ([0, 1, 3, 2, 3] : List NodeRef).count 3 = 2 ∧
    paths diamondStore 2 0 = [[0], [1, 0], [3, 1, 0], [2, 0], [3, 2, 0]] := by
  have hflat : l = flatten st dfuel r := by
    have h1 := runs_flatten st dfuel r hok [] [] (RunsTo_nil st)
    have h2 : RunsTo st (Node.dfs r) l := ⟨rfuel, hrun⟩
    simpa using RunsTo_det h2 h1
  refine ⟨hflat, ?_, paths_sound st dfuel r, diamond_run, by decide, by decide,
    by decide⟩
  rw [paths_headD st dfuel r, hflat]

/-- C2 witness: the diamond. -/
theorem c2_witness :
    [0, 1, 3, 2, 3] = flatten diamondStore 2 0 ∧
    (paths diamondStore 2 0).map (fun p => p.headD 0) = [0, 1, 3, 2, 3] := by
  have h := c2_dfs_once_per_path Nat diamondStore 0 2 9 [0, 1, 3, 2, 3]
    diamond_fuelOK diamond_run
  exact ⟨h.1, h.2.1⟩
